import Mathlib

/-!
Verification development for the DocuRift traffic-to-schema inference engine
(package `analyzer`, file `internal/analyzer/analyzer.go` and
`internal/analyzer/openapi.go`).

Go strings are modelled as `List Char` (`Str`); Go maps as association lists
with first-match lookup and in-place update (`lookupA` / `insertA`); Go
`interface{}` values decoded from JSON as the inductive `GoVal` (with `float64`
payloads carried as rationals); Go `int` as `Int`.  `strings.EqualFold` and
`strings.ToLower` are modelled by ASCII case folding.
-/

namespace DocuRift

/-- Go strings, modelled as lists of characters. -/
abbrev Str := List Char

/-- Conversion from Lean string literals to the `Str` model. -/
def strL (s : String) : Str := s.toList

/-- ASCII lower-casing of one character (model of Go case folding). -/
def lowerAscii (c : Char) : Char :=
  if 'A' ≤ c ∧ c ≤ 'Z' then Char.ofNat (c.toNat + 32) else c

/-- Model of `strings.EqualFold` (ASCII folding). -/
def equalFold (s t : Str) : Bool :=
  s.map lowerAscii = t.map lowerAscii

/-- Does the string start with the scheme marker `://`?  Used to model
`strings.LastIndex(url, "://")` and its absence. -/
def startsWithMarker : Str → Bool
  | a :: b :: c :: _ => a = ':' && b = '/' && c = '/'
  | _ => false

/-- `true` iff the string contains no occurrence of `://`. -/
def noMarker : Str → Bool
  | [] => true
  | c :: cs => !startsWithMarker (c :: cs) && noMarker cs

/-- Index of the last occurrence of `://`, model of
`strings.LastIndex(url, "://")` (`none` for Go's `-1`). -/
def lastIndexMarker : Str → Option Nat
  | [] => none
  | c :: cs =>
    match lastIndexMarker cs with
    | some i => some (i + 1)
    | none => if startsWithMarker (c :: cs) then some 0 else none

/-- Index of the first occurrence of a character, model of
`strings.Index(s, <one-char sep>)`. -/
def indexOfChar (sep : Char) : Str → Option Nat
  | [] => none
  | c :: cs => if c = sep then some 0 else (indexOfChar sep cs).map (· + 1)

/-- Model of `strings.Split(s, <one-char sep>)`: always returns at least one
(possibly empty) piece. -/
def splitOnChar (sep : Char) : Str → List Str
  | [] => [[]]
  | c :: cs =>
    if c = sep then [] :: splitOnChar sep cs
    else
      match splitOnChar sep cs with
      | [] => [[c]]
      | s :: ss => (c :: s) :: ss

/-- Model of `strings.Join(parts, <one-char sep>)`. -/
def joinWith (sep : Char) : List Str → Str
  | [] => []
  | [s] => s
  | s :: rest => s ++ sep :: joinWith sep rest

/-- Decimal value of a digit string. -/
def digitsVal (s : Str) : Nat :=
  s.foldl (fun acc c => acc * 10 + (c.toNat - '0'.toNat)) 0

/-- Model of `strconv.Atoi(s) == nil` (base-10, optional sign, must fit in
a 64-bit signed integer; overflow makes `Atoi` return an error). -/
def isGoInt (s : Str) : Bool :=
  match s with
  | [] => false
  | c :: rest =>
    let digits := if c = '+' ∨ c = '-' then rest else s
    digits ≠ [] && digits.all Char.isDigit &&
      (if c = '-' then digitsVal digits ≤ 2 ^ 63 else digitsVal digits ≤ 2 ^ 63 - 1)

/-- Lower-case hexadecimal digit. -/
def isHexLower (c : Char) : Bool :=
  c.isDigit || ('a' ≤ c && c ≤ 'f')

/-- Model of `isUUID`: the regex
`^[0-9a-f]{8}-[0-9a-f]{4}-[0-9a-f]{4}-[0-9a-f]{4}-[0-9a-f]{12}$`
applied to `strings.ToLower(s)`. -/
def isUUID (s : Str) : Bool :=
  let t := s.map lowerAscii
  let groups := splitOnChar '-' t
  groups.map List.length = [8, 4, 4, 4, 12] && groups.all (List.all · isHexLower)

/-- The per-segment replacement step of `normalizeURL`: empty segments are
skipped, numeric segments become `{id}`, UUID segments become `{uuid}`. -/
def transformSeg (s : Str) : Str :=
  if s = [] then s
  else if isGoInt s then strL "{id}"
  else if isUUID s then strL "{uuid}"
  else s

/-- Model of `normalizeURL` (analyzer.go): strip scheme and authority at the
last `://`, strip the query at the first `?`, replace numeric/UUID segments,
rejoin with `/`.  Inputs with no `://` are returned unchanged. -/
def goNormalizeURL (url : Str) : Str :=
  match lastIndexMarker url with
  | none => url
  | some pI =>
    let rest := url.drop (pI + 3)
    match indexOfChar '/' rest with
    | none => ['/']
    | some pathIndex =>
      let path := rest.drop pathIndex
      let path2 :=
        match indexOfChar '?' path with
        | none => path
        | some qi => path.take qi
      joinWith '/' ((splitOnChar '/' path2).map transformSeg)

/-- A decoded Go `interface{}` value as produced by `encoding/json` plus the
`int` case handled by `areValuesEqual` (programmatic insertion).  `float64`
payloads are carried as rationals. -/
inductive GoVal where
  | null : GoVal
  | boolean : Bool → GoVal
  | float : ℚ → GoVal
  | int : Int → GoVal
  | str : Str → GoVal
  | arr : List GoVal → GoVal
  | obj : List (Str × GoVal) → GoVal

/-- First-match lookup in an association list (Go map read `m[k]`). -/
def lookupA {κ α : Type} [DecidableEq κ] : List (κ × α) → κ → Option α
  | [], _ => none
  | (k0, v0) :: rest, k => if k0 = k then some v0 else lookupA rest k

/-- Update-or-append in an association list (Go map write `m[k] = v`). -/
def insertA {κ α : Type} [DecidableEq κ] : List (κ × α) → κ → α → List (κ × α)
  | [], k, v => [(k, v)]
  | (k0, v0) :: rest, k, v =>
    if k0 = k then (k0, v) :: rest else (k0, v0) :: insertA rest k v

mutual

/-- Model of `areValuesEqual` (analyzer.go): structural equality with maps
compared by size plus key-wise lookup, slices element-wise, primitives by
value within their own kind. -/
def areValuesEqual : GoVal → GoVal → Bool
  | .null, .null => true
  | .null, _ => false
  | _, .null => false
  | .obj a, .obj b => a.length = b.length && objFieldsIncluded a b
  | .obj _, _ => false
  | .arr a, .arr b => a.length = b.length && listValuesEqual a b
  | .arr _, _ => false
  | .float a, .float b => a = b
  | .float _, _ => false
  | .int a, .int b => a = b
  | .int _, _ => false
  | .str a, .str b => a = b
  | .str _, _ => false
  | .boolean a, .boolean b => a = b
  | .boolean _, _ => false

/-- Element-wise comparison of two slices (`areValuesEqual`, slice case). -/
def listValuesEqual : List GoVal → List GoVal → Bool
  | [], [] => true
  | [], _ :: _ => false
  | _ :: _, [] => false
  | x :: xs, y :: ys => areValuesEqual x y && listValuesEqual xs ys

/-- Key-wise inclusion of the first map's entries in the second
(`areValuesEqual`, map case: every key of `a` exists in `b` with an equal
value). -/
def objFieldsIncluded : List (Str × GoVal) → List (Str × GoVal) → Bool
  | [], _ => true
  | (k, v) :: rest, b =>
    match lookupA b k with
    | some w => areValuesEqual v w && objFieldsIncluded rest b
    | none => false

end

/-- The analyzer configuration a `SchemaStore` can reach through its
back-reference: `maxExamples` (set by `Analyzer.SetMaxExamples`, never read by
any store) and `redactedFields` (read by `shouldRedact`). -/
structure AnalyzerCfg where
  maxExamples : Int
  redactedFields : List Str

/-- `NewAnalyzer` defaults: `maxExamples = 10`, empty redaction list. -/
def defaultAnalyzerCfg : AnalyzerCfg := ⟨10, []⟩

/-- Model of `Analyzer.SetMaxExamples`: only the analyzer-level field changes;
no store is touched. -/
def setMaxExamples (a : AnalyzerCfg) (max : Int) : AnalyzerCfg :=
  { a with maxExamples := max }

/-- Model of `Analyzer.SetRedactedFields`. -/
def setRedactedFields (a : AnalyzerCfg) (fields : List Str) : AnalyzerCfg :=
  { a with redactedFields := fields }

/-- Model of `Analyzer.shouldRedact`: `strings.EqualFold` of the WHOLE field
string against each configured name. -/
def shouldRedact (a : AnalyzerCfg) (field : Str) : Bool :=
  a.redactedFields.any (fun redactedField => equalFold field redactedField)

/-- Model of `SchemaStore`: `Examples` and `Optional` are Go maps (exported,
hence serialized); `maxExamples` and the `analyzer` back-reference are
unexported. -/
structure SchemaStore where
  Examples : List (Str × List GoVal)
  Optional : List (Str × Bool)
  maxExamples : Int
  analyzer : Option AnalyzerCfg

/-- `NewSchemaStore` (maxExamples 10, nil analyzer) followed by
`SetAnalyzer(a)` when `a` is `some`. -/
def newSchemaStore (a : Option AnalyzerCfg) : SchemaStore :=
  ⟨[], [], 10, a⟩

/-- The redaction step at the top of `SchemaStore.AddValue`: when the analyzer
back-reference is set and `shouldRedact` matches the path, the stored value
becomes the literal `"REDACTED"`; with a nil back-reference the check is
skipped entirely. -/
def redactedVal (s : SchemaStore) (path : Str) (value : GoVal) : GoVal :=
  match s.analyzer with
  | some cfg => if shouldRedact cfg path then GoVal.str (strL "REDACTED") else value
  | none => value

/-- Model of `SchemaStore.AddValue`: redact if the analyzer reference is set
and `shouldRedact` matches the path; create the path entry (empty list,
optional true) when new; skip duplicates; append only below `maxExamples`. -/
def addValue (s : SchemaStore) (path : Str) (value : GoVal) : SchemaStore :=
  let value := redactedVal s path value
  let s1 :=
    if (lookupA s.Examples path).isNone then
      { s with Examples := insertA s.Examples path []
               Optional := insertA s.Optional path true }
    else s
  let cur := (lookupA s1.Examples path).getD []
  if cur.any (fun v => areValuesEqual v value) then s1
  else if (cur.length : Int) < s1.maxExamples then
    { s1 with Examples := insertA s1.Examples path (cur ++ [value]) }
  else s1

/-- Model of `SchemaStore.SetOptional`: unconditional map write. -/
def setOptional (s : SchemaStore) (path : Str) (optional : Bool) : SchemaStore :=
  { s with Optional := insertA s.Optional path optional }

/-- An operation on a single `SchemaStore`. -/
inductive StoreOp where
  | add : Str → GoVal → StoreOp
  | setOpt : Str → Bool → StoreOp

/-- Apply one store operation. -/
def applyOp (s : SchemaStore) : StoreOp → SchemaStore
  | .add p v => addValue s p v
  | .setOpt p b => setOptional s p b

/-- Apply a sequence of store operations. -/
def applyOps (ops : List StoreOp) (s : SchemaStore) : SchemaStore :=
  ops.foldl applyOp s

/-- Model of `isObjectArray`: non-empty and first element is a map. -/
def isObjectArray (arr : List GoVal) : Bool :=
  match arr with
  | [] => false
  | .obj _ :: _ => true
  | _ => false

/-- The Go test `value == nil` on an `interface{}` holding a decoded JSON value. -/
def isNullVal : GoVal → Bool
  | .null => true
  | _ => false

/-- Proof bookkeeping for URL-normalization idempotence: does the string end
with a colon? -/
def endsColon : Str → Bool
  | [] => false
  | [c] => c = ':'
  | _ :: c :: rest => endsColon (c :: rest)

/-- Proof bookkeeping: does the string start with a slash? -/
def headSlash : Str → Bool
  | c :: _ => c = '/'
  | [] => false

/-- Proof bookkeeping: a list of slash-free segments joined with `/` contains
`://` exactly when some segment ends in a colon and is followed by an empty
segment that is not the last one. -/
def hasBadPair : List Str → Bool
  | s :: t :: u :: rest => (endsColon s && t.isEmpty) || hasBadPair (t :: u :: rest)
  | _ => false

mutual

/-- Model of `processJSONPayload` (analyzer.go): recursive walker flattening a
decoded JSON value into (path, leaf value) store writes.  The Go function
mutates the store through a pointer; here the store is threaded through. -/
def processJSONPayload (store : SchemaStore) (basePath : Str) (value : GoVal) :
    SchemaStore :=
  if basePath = [] ∧ isNullVal value then store
  else
    match value with
    | .obj fields => processFields store basePath fields
    | .arr elems =>
      if elems.isEmpty then
        if basePath ≠ [] ∧ ¬basePath.contains ']' then
          addValue store (basePath ++ strL "[]") .null
        else store
      else if isObjectArray elems then
        processObjectItems store (basePath ++ strL "[]") elems
      else
        processPrimItems store basePath (basePath ++ strL "[]") elems
    | v => addValue store basePath v

/-- The map case of `processJSONPayload`: null children are recorded directly,
other children are recursed into. -/
def processFields (store : SchemaStore) (basePath : Str) :
    List (Str × GoVal) → SchemaStore
  | [] => store
  | (key, val) :: rest =>
    let newPath := if basePath ≠ [] then basePath ++ '.' :: key else key
    let store1 :=
      if isNullVal val then addValue store newPath .null
      else processJSONPayload store newPath val
    processFields store1 basePath rest

/-- The object-array case of `processJSONPayload`: recurse into each item with
the `[]`-suffixed path. -/
def processObjectItems (store : SchemaStore) (arrayPath : Str) :
    List GoVal → SchemaStore
  | [] => store
  | item :: rest =>
    processObjectItems (processJSONPayload store arrayPath item) arrayPath rest

/-- The primitive-array case of `processJSONPayload`: each element is recorded
at `basePath ++ "[]"` when `basePath` is non-empty and contains no `]`. -/
def processPrimItems (store : SchemaStore) (basePath arrayPath : Str) :
    List GoVal → SchemaStore
  | [] => store
  | val :: rest =>
    let store1 :=
      if basePath ≠ [] ∧ ¬basePath.contains ']' then addValue store arrayPath val
      else store
    processPrimItems store1 basePath arrayPath rest

end

/-- Per-status response data: headers and payload stores. -/
structure ResponseData where
  headers : SchemaStore
  payload : SchemaStore

/-- Model of `EndpointData`. -/
structure EndpointData where
  method : Str
  url : Str
  requestHeaders : SchemaStore
  requestPayload : SchemaStore
  urlParameters : SchemaStore
  responseStatuses : List (Int × ResponseData)

/-- The endpoint registry (`Analyzer.endpoints`). -/
structure AnalyzerState where
  endpoints : List (Str × EndpointData)

/-- The header names excluded from documentation (`excludedHeaders`). -/
def excludedHeaders : List Str :=
  [strL "Content-Length", strL "Content-Type", strL "Date", strL "Server",
   strL "Connection", strL "Keep-Alive", strL "Transfer-Encoding", strL "Accept",
   strL "Accept-Encoding", strL "Accept-Language", strL "User-Agent", strL "Host"]

/-- Feed every value of one header/parameter into a store under its name. -/
def addAllValues (s : SchemaStore) (name : Str) (values : List Str) : SchemaStore :=
  values.foldl (fun st v => addValue st name (.str v)) s

/-- Model of `Analyzer.ProcessRequest`.  Exchanges arrive with the query map
already parsed from the raw URL (the code reads `req.URL.Query()` before
normalization) and with bodies given as their decoded JSON value (`none` for
an absent or undecodable body; gzip decompression is a byte-level concern
below this embedding).  Responses with status `>= 400` are discarded before
any state is touched. -/
def processRequest (cfg : AnalyzerCfg) (st : AnalyzerState) (method url : Str)
    (query reqHeaders : List (Str × List Str)) (reqBody : Option GoVal)
    (status : Int) (respHeaders : List (Str × List Str))
    (respBody : Option GoVal) : AnalyzerState :=
  if status ≥ 400 then st
  else
    let normalizedURL := goNormalizeURL url
    let key := method ++ ' ' :: normalizedURL
    let endpoint :=
      match lookupA st.endpoints key with
      | some e => e
      | none =>
        ⟨method, normalizedURL, newSchemaStore (some cfg), newSchemaStore (some cfg),
         newSchemaStore (some cfg), []⟩
    let params :=
      query.foldl (fun s kv => setOptional (addAllValues s kv.1 kv.2) kv.1 true)
        endpoint.urlParameters
    let endpoint := { endpoint with urlParameters := params }
    let reqHs :=
      reqHeaders.foldl
        (fun s kv => if excludedHeaders.contains kv.1 then s else addAllValues s kv.1 kv.2)
        endpoint.requestHeaders
    let endpoint := { endpoint with requestHeaders := reqHs }
    let reqPayload :=
      match reqBody with
      | some payload => processJSONPayload endpoint.requestPayload [] payload
      | none => endpoint.requestPayload
    let endpoint := { endpoint with requestPayload := reqPayload }
    let responseData :=
      match lookupA endpoint.responseStatuses status with
      | some r => r
      | none => ⟨newSchemaStore (some cfg), newSchemaStore (some cfg)⟩
    let respHs :=
      respHeaders.foldl
        (fun s kv => if excludedHeaders.contains kv.1 then s else addAllValues s kv.1 kv.2)
        responseData.headers
    let responseData := { responseData with headers := respHs }
    let respPayload :=
      match respBody with
      | some payload => processJSONPayload responseData.payload [] payload
      | none => responseData.payload
    let responseData := { responseData with payload := respPayload }
    let endpoint :=
      { endpoint with responseStatuses := insertA endpoint.responseStatuses status responseData }
    { st with endpoints := insertA st.endpoints key endpoint }

/-- An OpenAPI schema value as built by openapi.go (`Schema` struct).  The Go
zero value has an empty `Type`; `Enum` is a nil slice unless set. -/
inductive Schema where
  | mk (type : Str) (properties : List (Str × Schema)) (items : Option Schema)
      (enumVals : List Str) (examples : List GoVal) (required : List Str)

/-- The `Type` field of a schema. -/
def Schema.type : Schema → Str
  | .mk t _ _ _ _ _ => t

/-- The `Required` field of a schema. -/
def Schema.required : Schema → List Str
  | .mk _ _ _ _ _ r => r

/-- The `Properties` field of a schema. -/
def Schema.properties : Schema → List (Str × Schema)
  | .mk _ p _ _ _ _ => p

/-- The Go zero value `Schema{}`. -/
def emptySchema : Schema := .mk [] [] none [] [] []

/-- `if schema.Type == "" { schema.Type = "object" }`. -/
def defaultToObject : Schema → Schema
  | .mk t p i e ex r => .mk (if t = [] then strL "object" else t) p i e ex r

/-- `strings.HasSuffix(k, "[]")`. -/
def endsArr (s : Str) : Bool :=
  match s.reverse with
  | ']' :: '[' :: _ => true
  | _ => false

/-- `strings.TrimSuffix(k, "[]")`. -/
def trimArr (s : Str) : Str :=
  if endsArr s then s.take (s.length - 2) else s

/-- The distinct string examples, in first-occurrence order (the Go code uses
a set; membership, not order, is what the enum logic consumes). -/
def distinctStrings (l : List GoVal) : List Str :=
  l.foldl
    (fun acc v =>
      match v with
      | .str s => if acc.contains s then acc else acc ++ [s]
      | _ => acc)
    []

/-- Model of `createPropertySchema` (openapi.go): shallow first-example type
inference, string enums when fewer than 5 distinct strings, the whole example
list attached.  `int` and `null` examples hit no `case` and leave the type
empty. -/
def createPropertySchema (examples : List GoVal) : Schema :=
  match examples with
  | [] => emptySchema
  | e :: _ =>
    let base :=
      match e with
      | .str _ =>
        let uniq := distinctStrings examples
        let en := if uniq.length > 0 ∧ uniq.length < 5 then uniq else []
        Schema.mk (strL "string") [] none en [] []
      | .float _ => Schema.mk (strL "number") [] none [] [] []
      | .boolean _ => Schema.mk (strL "boolean") [] none [] [] []
      | .arr _ => Schema.mk (strL "array") [] (some (Schema.mk (strL "object") [] none [] [] [])) [] [] []
      | .obj _ => Schema.mk (strL "object") [] none [] [] []
      | _ => emptySchema
    match base with
    | .mk t p i en _ r => .mk t p i en examples r

/-- A node of the path trie built by `buildObjectSchemaFromStore`: children
keyed by segment, a leaf marker, and the full original path at leaves. -/
inductive TrieNode where
  | mk (children : List (Str × TrieNode)) (leaf : Bool) (path : Str)

instance : Nonempty TrieNode := ⟨TrieNode.mk [] false []⟩

/-- The children of a trie node. -/
def TrieNode.children : TrieNode → List (Str × TrieNode)
  | .mk c _ _ => c

/-- The leaf marker of a trie node. -/
def TrieNode.leaf : TrieNode → Bool
  | .mk _ l _ => l

/-- The stored full path of a trie node. -/
def TrieNode.path : TrieNode → Str
  | .mk _ _ p => p

/-- Insert one split path into the trie, marking the terminal node as a leaf
carrying the full original path (the tree-building loop of
`buildObjectSchemaFromStore`). -/
def trieInsert (n : TrieNode) : List Str → Str → TrieNode
  | [], _ => n
  | part :: rest, full =>
    let c := (lookupA n.children part).getD (TrieNode.mk [] false [])
    let c2 :=
      if rest.isEmpty then TrieNode.mk c.children true full
      else trieInsert c rest full
    TrieNode.mk (insertA n.children part c2) n.leaf n.path

/-- Build the trie from every path key of the store's `Examples` map. -/
def buildTrie (store : SchemaStore) : TrieNode :=
  store.Examples.foldl
    (fun t kv => trieInsert t (splitOnChar '.' kv.1) kv.1)
    (TrieNode.mk [] false [])

/-- The single-child chain walk of the required-path resolution: starting at a
child node, follow single-child links while the current node carries no path,
accumulating the traversed keys. -/
def chainWalk : TrieNode → List Str → List Str × TrieNode
  | TrieNode.mk [(k, c)] lf p, acc =>
    if p = [] then chainWalk c (acc ++ [k])
    else (acc, TrieNode.mk [(k, c)] lf p)
  | n, acc => (acc, n)

/-- Resolution of a child's "full path" for the `required` decision
(`buildObjectSchemaFromStore`): the child's own path if set, otherwise the
chain walk's final path if set, otherwise the dot-join of the walked keys
(which need not be a key of the store). -/
def resolveFullPath (child : TrieNode) : Str :=
  if child.path ≠ [] then child.path
  else
    let walked := chainWalk child []
    if walked.2.path ≠ [] then walked.2.path
    else if walked.1 ≠ [] then joinWith '.' walked.1
    else []

/-- The `required` test applied to one resolved path: non-empty and
`!store.Optional[fullPath]`, where a missing key yields Go's zero value
`false`. -/
def requiredFlag (store : SchemaStore) (child : TrieNode) : Bool :=
  let fullPath := resolveFullPath child
  fullPath ≠ [] && !((lookupA store.Optional fullPath).getD false)

/-- The property name a child is entered under: its key, stripped of a
trailing `[]`. -/
def childName (k : Str) : Str :=
  if endsArr k then trimArr k else k

mutual

/-- Model of the recursive `build` closure of `buildObjectSchemaFromStore`:
leaves become property schemas; non-root nodes whose every child key ends in
`[]` become objects of arrays; otherwise an object whose properties are the
children (array-wrapped when the key ends in `[]`) and whose `required` list
is decided by `requiredFlag`.  The single Go loop filling `Properties` and
`Required` is split into `buildProps` / `buildArrayProps` / `buildRequired`. -/
def buildNode (store : SchemaStore) (n : TrieNode) (isRoot : Bool) : Schema :=
  match n with
  | .mk ch lf pth =>
    if lf then createPropertySchema ((lookupA store.Examples pth).getD [])
    else if ¬isRoot ∧ ch.all (fun kc => endsArr kc.1) ∧ ¬ch.isEmpty then
      Schema.mk (strL "object") (buildArrayProps store ch) none [] [] []
    else
      Schema.mk (strL "object") (buildProps store ch) none [] []
        (buildRequired store ch)

/-- Properties of the all-arrays branch: every child is wrapped as an array. -/
def buildArrayProps (store : SchemaStore) :
    List (Str × TrieNode) → List (Str × Schema)
  | [] => []
  | (k, c) :: rest =>
    (trimArr k,
      Schema.mk (strL "array") [] (some (defaultToObject (buildNode store c false))) [] [] []) ::
      buildArrayProps store rest

/-- Properties of the general object branch. -/
def buildProps (store : SchemaStore) :
    List (Str × TrieNode) → List (Str × Schema)
  | [] => []
  | (k, c) :: rest =>
    let entry :=
      if endsArr k then
        (trimArr k,
          Schema.mk (strL "array") [] (some (defaultToObject (buildNode store c false))) [] [] [])
      else (k, defaultToObject (buildNode store c false))
    entry :: buildProps store rest

/-- The `required` list of the general object branch. -/
def buildRequired (store : SchemaStore) : List (Str × TrieNode) → List Str
  | [] => []
  | (k, c) :: rest =>
    if requiredFlag store c then childName k :: buildRequired store rest
    else buildRequired store rest

end

/-- Model of `buildObjectSchemaFromStore` (openapi.go). -/
def buildObjectSchemaFromStore (store : SchemaStore) : Schema :=
  defaultToObject (buildNode store (buildTrie store) true)

/-- The serialized content of one `SchemaStore` inside `analyzer.json`: only
the exported `Examples` and `Optional` maps appear in the JSON document. -/
structure PersistedStoreData where
  examples : List (Str × List GoVal)
  optional : List (Str × Bool)

/-- Model of what `json.Unmarshal` produces for a `SchemaStore` during
`loadState`: the exported maps are filled from the snapshot while the
unexported fields take their Go zero values — `maxExamples = 0` and a nil
`analyzer` back-reference. -/
def restoreStore (d : PersistedStoreData) : SchemaStore :=
  ⟨d.examples, d.optional, 0, none⟩

/-- Test fixture for the required-list analysis: a store holding exactly the
two paths `a.b.x` and `a.b.y`, both flagged optional. -/
def c3Store : SchemaStore :=
  ⟨[(strL "a.b.x", [GoVal.int 1]), (strL "a.b.y", [GoVal.int 2])],
   [(strL "a.b.x", true), (strL "a.b.y", true)], 10, none⟩

/-! ### Lemmas about the scheme marker `://` -/

theorem startsWithMarker_cons_false {c : Char} (t : Str) (h : c ≠ ':') :
    startsWithMarker (c :: t) = false := by
  match t with
  | [] => rfl
  | [_] => rfl
  | b :: d :: rest => simp [startsWithMarker, h]

theorem startsWithMarker_second_false {a b : Char} (t : Str) (h : b ≠ '/') :
    startsWithMarker (a :: b :: t) = false := by
  match t with
  | [] => rfl
  | d :: rest => simp [startsWithMarker, h]

theorem noMarker_cons {c : Char} {cs : Str} :
    noMarker (c :: cs) = (!startsWithMarker (c :: cs) && noMarker cs) := rfl

theorem lastIndexMarker_none_iff (s : Str) :
    lastIndexMarker s = none ↔ noMarker s = true := by
  induction s with
  | nil => simp [lastIndexMarker, noMarker]
  | cons c cs ih =>
    rw [noMarker_cons]
    cases h : lastIndexMarker cs with
    | some i =>
      have hcs : noMarker cs = false := by
        cases hm : noMarker cs with
        | true => rw [← ih] at hm; simp [h] at hm
        | false => rfl
      simp [lastIndexMarker, h, hcs]
    | none =>
      have hcs : noMarker cs = true := ih.mp h
      simp only [lastIndexMarker, h]
      cases hsw : startsWithMarker (c :: cs) with
      | true => simp [hsw, hcs]
      | false => simp [hsw, hcs]

theorem noMarker_drop {s : Str} (h : noMarker s = true) (n : Nat) :
    noMarker (s.drop n) = true := by
  induction s generalizing n with
  | nil => simpa using h
  | cons c cs ih =>
    cases n with
    | zero => simpa using h
    | succ m =>
      rw [noMarker_cons, Bool.and_eq_true] at h
      exact ih h.2 m

theorem startsWithMarker_take {c : Char} (t : Str) (n : Nat)
    (h : startsWithMarker (c :: t.take n) = true) :
    startsWithMarker (c :: t) = true := by
  match t, n with
  | [], n => simp at h; exact absurd h (by simp [startsWithMarker])
  | d :: t', 0 => simp [List.take] at h; exact absurd h (by simp [startsWithMarker])
  | d :: t', Nat.succ m =>
    match t', m with
    | [], m => simp [List.take, startsWithMarker] at h
    | e :: t'', 0 => simp [List.take, startsWithMarker] at h
    | e :: t'', Nat.succ m' =>
      simpa [List.take, startsWithMarker] using h

theorem noMarker_take {s : Str} (h : noMarker s = true) (n : Nat) :
    noMarker (s.take n) = true := by
  induction s generalizing n with
  | nil => simp [List.take_nil, noMarker]
  | cons c cs ih =>
    cases n with
    | zero => simp [List.take, noMarker]
    | succ m =>
      rw [noMarker_cons, Bool.and_eq_true] at h
      rw [List.take_succ_cons, noMarker_cons, Bool.and_eq_true]
      refine ⟨?_, ih h.2 m⟩
      cases hsw : startsWithMarker (c :: cs.take m) with
      | false => rfl
      | true =>
        have := startsWithMarker_take cs m hsw
        rw [this] at h
        simp at h

theorem lastIndexMarker_drop {s : Str} {i : Nat}
    (h : lastIndexMarker s = some i) : noMarker (s.drop (i + 3)) = true := by
  induction s generalizing i with
  | nil => simp [lastIndexMarker] at h
  | cons c cs ih =>
    rw [lastIndexMarker] at h
    cases hcs : lastIndexMarker cs with
    | some j =>
      rw [hcs] at h
      have hij : i = j + 1 := by
        have := h
        simp at this
        omega
      subst hij
      simpa [List.drop] using ih hcs
    | none =>
      rw [hcs] at h
      by_cases hsw : startsWithMarker (c :: cs) = true
      · simp [hsw] at h
        subst h
        have hcs2 : noMarker cs = true := (lastIndexMarker_none_iff cs).mp hcs
        simpa [List.drop] using noMarker_drop hcs2 2
      · simp [hsw] at h

theorem noMarker_of_slashFree {s : Str} (h : ∀ c ∈ s, c ≠ '/') :
    noMarker s = true := by
  induction s with
  | nil => rfl
  | cons a t ih =>
    rw [noMarker_cons, Bool.and_eq_true]
    refine ⟨?_, ih fun c hc => h c (List.mem_cons_of_mem a hc)⟩
    match t with
    | [] => rfl
    | [b] => rfl
    | b :: d :: rest =>
      have hb : b ≠ '/' := h b (by simp)
      simp [startsWithMarker, hb]

theorem endsColon_cons {a : Char} {s : Str} (h : s ≠ []) :
    endsColon (a :: s) = endsColon s := by
  match s with
  | [] => exact absurd rfl h
  | b :: rest => rfl

theorem noMarker_append_slash (s t : Str) (hs : ∀ c ∈ s, c ≠ '/') :
    noMarker (s ++ '/' :: t) = (!(endsColon s && headSlash t) && noMarker t) := by
  induction s with
  | nil =>
    rw [List.nil_append, noMarker_cons]
    rw [startsWithMarker_cons_false t (by decide)]
    simp [endsColon]
  | cons a s' ih =>
    have hs' : ∀ c ∈ s', c ≠ '/' := fun c hc => hs c (List.mem_cons_of_mem a hc)
    rw [List.cons_append, noMarker_cons, ih hs']
    match s' with
    | [] =>
      simp only [List.nil_append]
      have hsw : startsWithMarker (a :: '/' :: t) = (decide (a = ':') && headSlash t) := by
        match t with
        | [] => simp [startsWithMarker, headSlash]
        | b :: t' => simp [startsWithMarker, headSlash, Bool.and_assoc]
      rw [hsw]
      simp only [endsColon]
      cases hd : decide (a = ':') <;> cases hh : headSlash t <;> simp [hd, hh]
    | b :: s'' =>
      have hb : b ≠ '/' := hs b (by simp)
      simp only [List.cons_append]
      have hsw : startsWithMarker (a :: b :: (s'' ++ '/' :: t)) = false :=
        startsWithMarker_second_false (s'' ++ '/' :: t) hb
      have hec : endsColon (a :: b :: s'') = endsColon (b :: s'') :=
        endsColon_cons (by simp)
      rw [hsw, hec]
      simp

/-! ### Lemmas about `splitOnChar` and `joinWith` -/

theorem splitOnChar_ne_nil (sep : Char) (s : Str) : splitOnChar sep s ≠ [] := by
  match s with
  | [] => simp [splitOnChar]
  | c :: cs =>
    by_cases h : c = sep
    · simp [splitOnChar, h]
    · simp only [splitOnChar, if_neg h]
      cases hsp : splitOnChar sep cs <;> simp

theorem splitOnChar_sepFree (sep : Char) (s : Str) :
    ∀ p ∈ splitOnChar sep s, ∀ c ∈ p, c ≠ sep := by
  induction s with
  | nil => intro p hp; simp [splitOnChar] at hp; simp [hp]
  | cons c cs ih =>
    intro p hp
    by_cases h : c = sep
    · rw [splitOnChar, if_pos h] at hp
      rcases List.mem_cons.mp hp with h1 | h1
      · simp [h1]
      · exact ih p h1
    · rw [splitOnChar, if_neg h] at hp
      cases hsp : splitOnChar sep cs with
      | nil => exact absurd hsp (splitOnChar_ne_nil sep cs)
      | cons s0 ss =>
        rw [hsp] at hp
        rcases List.mem_cons.mp hp with h1 | h1
        · subst h1
          intro d hd
          rcases List.mem_cons.mp hd with h2 | h2
          · simp [h2, h]
          · exact ih s0 (hsp ▸ List.mem_cons_self s0 ss) d h2
        · exact ih p (hsp ▸ List.mem_cons_of_mem s0 h1)

theorem joinWith_splitOnChar (sep : Char) (s : Str) :
    joinWith sep (splitOnChar sep s) = s := by
  induction s with
  | nil => rfl
  | cons c cs ih =>
    by_cases h : c = sep
    · rw [splitOnChar, if_pos h]
      obtain ⟨r, rs, hr⟩ := List.exists_cons_of_ne_nil (splitOnChar_ne_nil sep cs)
      rw [hr]
      rw [hr] at ih
      show [] ++ sep :: joinWith sep (r :: rs) = c :: cs
      rw [List.nil_append, ih, h]
    · rw [splitOnChar, if_neg h]
      cases hsp : splitOnChar sep cs with
      | nil => exact absurd hsp (splitOnChar_ne_nil sep cs)
      | cons s0 ss =>
        rw [hsp] at ih
        cases ss with
        | nil => show c :: s0 = c :: cs; rw [show joinWith sep [s0] = s0 from rfl] at ih; rw [ih]
        | cons u us =>
          show c :: joinWith sep (s0 :: u :: us) = c :: cs
          rw [ih]

theorem splitOnChar_of_sepFree (sep : Char) (s : Str) (h : ∀ c ∈ s, c ≠ sep) :
    splitOnChar sep s = [s] := by
  induction s with
  | nil => rfl
  | cons c cs ih =>
    have hc : c ≠ sep := h c (by simp)
    rw [splitOnChar, if_neg hc, ih fun d hd => h d (List.mem_cons_of_mem c hd)]

theorem splitOnChar_append_sep (sep : Char) (s r : Str) (h : ∀ c ∈ s, c ≠ sep) :
    splitOnChar sep (s ++ sep :: r) = s :: splitOnChar sep r := by
  induction s with
  | nil => simp [splitOnChar]
  | cons c cs ih =>
    have hc : c ≠ sep := h c (by simp)
    rw [List.cons_append, splitOnChar, if_neg hc,
      ih fun d hd => h d (List.mem_cons_of_mem c hd)]

theorem splitOnChar_joinWith (sep : Char) (l : List Str) (hl : l ≠ [])
    (hfree : ∀ p ∈ l, ∀ c ∈ p, c ≠ sep) :
    splitOnChar sep (joinWith sep l) = l := by
  induction l with
  | nil => exact absurd rfl hl
  | cons s l' ih =>
    cases l' with
    | nil => exact splitOnChar_of_sepFree sep s (hfree s (by simp))
    | cons t rest =>
      show splitOnChar sep (s ++ sep :: joinWith sep (t :: rest)) = s :: t :: rest
      rw [splitOnChar_append_sep sep s _ (hfree s (by simp)),
        ih (by simp) fun p hp => hfree p (List.mem_cons_of_mem s hp)]

theorem headSlash_joinWith (t : Str) (rest : List Str)
    (ht : ∀ c ∈ t, c ≠ '/') :
    headSlash (joinWith '/' (t :: rest)) = (t.isEmpty && !rest.isEmpty) := by
  cases t with
  | nil =>
    cases rest with
    | nil => rfl
    | cons r rs => rfl
  | cons c t' =>
    have hc : c ≠ '/' := ht c (by simp)
    cases rest with
    | nil => simp [joinWith, headSlash, hc]
    | cons r rs => simp [joinWith, headSlash, hc]

theorem noMarker_joinWith_eq (segs : List Str)
    (h : ∀ p ∈ segs, ∀ c ∈ p, c ≠ '/') :
    noMarker (joinWith '/' segs) = !hasBadPair segs := by
  induction segs with
  | nil => rfl
  | cons s segs' ih =>
    cases segs' with
    | nil =>
      show noMarker s = !hasBadPair [s]
      rw [noMarker_of_slashFree (h s (by simp))]
      rfl
    | cons t rest =>
      have hs : ∀ c ∈ s, c ≠ '/' := h s (by simp)
      have ht : ∀ c ∈ t, c ≠ '/' := h t (by simp)
      have hrest : ∀ p ∈ t :: rest, ∀ c ∈ p, c ≠ '/' :=
        fun p hp => h p (List.mem_cons_of_mem s hp)
      show noMarker (s ++ '/' :: joinWith '/' (t :: rest)) = !hasBadPair (s :: t :: rest)
      rw [noMarker_append_slash s _ hs, headSlash_joinWith t rest ht, ih hrest]
      cases rest with
      | nil =>
        have hnb : hasBadPair [s, t] = false := rfl
        have hnb2 : hasBadPair [t] = false := rfl
        rw [hnb, hnb2]
        simp
      | cons u us =>
        show _ = !((endsColon s && t.isEmpty) || hasBadPair (t :: u :: us))
        cases endsColon s <;> cases ht2 : t.isEmpty <;>
          cases hbp : hasBadPair (t :: u :: us) <;> simp [ht2, hbp]

/-! ### Lemmas about `transformSeg` and `goNormalizeURL` -/

theorem transformSeg_ne_nil {s : Str} (h : s ≠ []) : transformSeg s ≠ [] := by
  rw [transformSeg, if_neg h]
  split_ifs with h1 h2
  · decide
  · decide
  · exact h

theorem transformSeg_isEmpty (s : Str) : (transformSeg s).isEmpty = s.isEmpty := by
  by_cases h : s = []
  · subst h; rfl
  · obtain ⟨a, as, rfl⟩ := List.exists_cons_of_ne_nil h
    obtain ⟨b, bs, hb⟩ := List.exists_cons_of_ne_nil (transformSeg_ne_nil h)
    rw [hb]
    rfl

theorem transformSeg_slashFree {s : Str} (hs : ∀ c ∈ s, c ≠ '/') :
    ∀ c ∈ transformSeg s, c ≠ '/' := by
  rw [transformSeg]
  split_ifs with h1 h2 h3
  · exact hs
  · exact fun c hc => (by decide : ∀ c ∈ strL "{id}", c ≠ '/') c hc
  · exact fun c hc => (by decide : ∀ c ∈ strL "{uuid}", c ≠ '/') c hc
  · exact hs

theorem transformSeg_of_endsColon {s : Str}
    (h : endsColon (transformSeg s) = true) : transformSeg s = s := by
  rw [transformSeg] at h ⊢
  split_ifs at h ⊢ with h1 h2 h3
  · rfl
  · exact absurd h (by decide)
  · exact absurd h (by decide)
  · rfl

theorem transformSeg_not_int_uuid (s : Str) :
    isGoInt (transformSeg s) = false ∧ isUUID (transformSeg s) = false := by
  rw [transformSeg]
  split_ifs with h1 h2 h3
  · subst h1; exact ⟨rfl, by decide⟩
  · exact ⟨by decide, by decide⟩
  · exact ⟨by decide, by decide⟩
  · exact ⟨by simpa using h2, by simpa using h3⟩

theorem hasBadPair_map_transformSeg :
    ∀ (segs : List Str), hasBadPair segs = false →
      hasBadPair (segs.map transformSeg) = false := by
  intro segs
  induction segs with
  | nil => intro _; rfl
  | cons s segs' ih =>
    intro h
    cases segs' with
    | nil => rfl
    | cons t rest =>
      cases rest with
      | nil => rfl
      | cons u us =>
        have h1 : (endsColon s && t.isEmpty) = false ∧
            hasBadPair (t :: u :: us) = false := by
          rw [hasBadPair] at h
          simpa using h
        show hasBadPair (transformSeg s :: transformSeg t :: transformSeg u ::
          us.map transformSeg) = false
        rw [hasBadPair]
        have h2 : hasBadPair (transformSeg t :: transformSeg u :: us.map transformSeg)
            = false := ih h1.2
        have h3 : (endsColon (transformSeg s) && (transformSeg t).isEmpty) = false := by
          by_cases hec : endsColon (transformSeg s) = true
          · have hts := transformSeg_of_endsColon hec
            rw [hts] at hec
            have htne : t.isEmpty = false := by
              rcases Bool.and_eq_false_iff.mp h1.1 with h4 | h4
              · rw [hec] at h4; cases h4
              · exact h4
            rw [hts, hec, transformSeg_isEmpty, htne]
            rfl
          · rw [Bool.not_eq_true] at hec
            rw [hec]
            rfl
        rw [h2, h3]
        rfl

theorem noMarker_normalize_core {path2 : Str} (h2 : noMarker path2 = true) :
    noMarker (joinWith '/' ((splitOnChar '/' path2).map transformSeg)) = true := by
  have hfree := splitOnChar_sepFree '/' path2
  have hbp : hasBadPair (splitOnChar '/' path2) = false := by
    have hj := noMarker_joinWith_eq (splitOnChar '/' path2) hfree
    rw [joinWith_splitOnChar '/' path2, h2] at hj
    cases hb : hasBadPair (splitOnChar '/' path2) with
    | false => rfl
    | true => rw [hb] at hj; cases hj
  have hfree2 : ∀ p ∈ (splitOnChar '/' path2).map transformSeg, ∀ c ∈ p, c ≠ '/' := by
    intro p hp
    obtain ⟨t, ht, rfl⟩ := List.mem_map.mp hp
    exact transformSeg_slashFree (hfree t ht)
  rw [noMarker_joinWith_eq _ hfree2, hasBadPair_map_transformSeg _ hbp]
  rfl

theorem goNormalizeURL_eq_some {u : Str} {i : Nat}
    (h : lastIndexMarker u = some i) :
    goNormalizeURL u =
      (match indexOfChar '/' (u.drop (i + 3)) with
      | none => ['/']
      | some pathIndex =>
        joinWith '/'
          ((splitOnChar '/'
            (match indexOfChar '?' ((u.drop (i + 3)).drop pathIndex) with
            | none => (u.drop (i + 3)).drop pathIndex
            | some qi => ((u.drop (i + 3)).drop pathIndex).take qi)).map
            transformSeg)) := by
  rw [goNormalizeURL, h]

theorem noMarker_goNormalizeURL {u : Str} {i : Nat}
    (h : lastIndexMarker u = some i) : noMarker (goNormalizeURL u) = true := by
  rw [goNormalizeURL_eq_some h]
  have hrest : noMarker (u.drop (i + 3)) = true := lastIndexMarker_drop h
  cases hidx : indexOfChar '/' (u.drop (i + 3)) with
  | none => show noMarker ['/'] = true; rfl
  | some pidx =>
    have hpath : noMarker ((u.drop (i + 3)).drop pidx) = true :=
      noMarker_drop hrest pidx
    show noMarker (joinWith '/'
      ((splitOnChar '/'
        (match indexOfChar '?' ((u.drop (i + 3)).drop pidx) with
        | none => (u.drop (i + 3)).drop pidx
        | some qi => ((u.drop (i + 3)).drop pidx).take qi)).map transformSeg)) = true
    cases hq : indexOfChar '?' ((u.drop (i + 3)).drop pidx) with
    | none => exact noMarker_normalize_core hpath
    | some qi => exact noMarker_normalize_core (noMarker_take hpath qi)

theorem goNormalizeURL_of_noMarker {s : Str} (h : noMarker s = true) :
    goNormalizeURL s = s := by
  rw [goNormalizeURL, (lastIndexMarker_none_iff s).mpr h]

theorem normalize_core_segments (path2 : Str) :
    splitOnChar '/' (joinWith '/' ((splitOnChar '/' path2).map transformSeg))
      = (splitOnChar '/' path2).map transformSeg := by
  apply splitOnChar_joinWith
  · exact fun hmap => splitOnChar_ne_nil '/' path2 (List.map_eq_nil_iff.mp hmap)
  · intro p hp
    obtain ⟨t, ht, rfl⟩ := List.mem_map.mp hp
    exact transformSeg_slashFree (splitOnChar_sepFree '/' path2 t ht)

/-- C8: URL normalization is idempotent — for every input string `u`,
`normalizeURL (normalizeURL u) = normalizeURL u`. -/
theorem c8_normalizeURL_idempotent (u : Str) :
    goNormalizeURL (goNormalizeURL u) = goNormalizeURL u := by
  cases h : lastIndexMarker u with
  | none =>
    have hu : goNormalizeURL u = u := by rw [goNormalizeURL, h]
    rw [hu]
    exact hu
  | some i => exact goNormalizeURL_of_noMarker (noMarker_goNormalizeURL h)

/-- C4 counterexample: for the input `example.com/users/123`, which carries no
scheme marker, `normalizeURL` returns the input unchanged, so its output
contains the path segment `123`, which parses as a base-10 integer — refuting
the claim that the output of `normalizeURL` never contains a numeric segment
for every input. -/
theorem c4_counterexample :
    goNormalizeURL (strL "example.com/users/123") = strL "example.com/users/123" ∧
    strL "123" ∈ splitOnChar '/' (goNormalizeURL (strL "example.com/users/123")) ∧
    isGoInt (strL "123") = true := by
  refine ⟨rfl, ?_, by decide⟩
  decide

/-- C4 (amended): whenever the input does contain the scheme marker `://`
(i.e. `lastIndexMarker` succeeds), no path segment of the output of
`normalizeURL` parses as a base-10 integer and none matches the UUID pattern;
inputs without the marker are returned unchanged and may keep such segments. -/
theorem c4_no_numeric_or_uuid_segments (u : Str) (i : Nat)
    (h : lastIndexMarker u = some i) :
    ∀ s ∈ splitOnChar '/' (goNormalizeURL u),
      isGoInt s = false ∧ isUUID s = false := by
  rw [goNormalizeURL_eq_some h]
  cases hidx : indexOfChar '/' (u.drop (i + 3)) with
  | none =>
    show ∀ s ∈ splitOnChar '/' ['/'], isGoInt s = false ∧ isUUID s = false
    intro s hs
    have hs2 : s ∈ [([] : Str), []] := hs
    rcases List.mem_cons.mp hs2 with h1 | h1
    · subst h1; exact ⟨rfl, by decide⟩
    · rcases List.mem_cons.mp h1 with h2 | h2
      · subst h2; exact ⟨rfl, by decide⟩
      · cases h2
  | some pidx =>
    show ∀ s ∈ splitOnChar '/' (joinWith '/'
      ((splitOnChar '/'
        (match indexOfChar '?' ((u.drop (i + 3)).drop pidx) with
        | none => (u.drop (i + 3)).drop pidx
        | some qi => ((u.drop (i + 3)).drop pidx).take qi)).map transformSeg)),
      isGoInt s = false ∧ isUUID s = false
    generalize (match indexOfChar '?' ((u.drop (i + 3)).drop pidx) with
        | none => (u.drop (i + 3)).drop pidx
        | some qi => ((u.drop (i + 3)).drop pidx).take qi) = path2
    rw [normalize_core_segments path2]
    intro s hs
    obtain ⟨t, ht, rfl⟩ := List.mem_map.mp hs
    exact transformSeg_not_int_uuid t

/-- C4 witness: the amended theorem applied to the concrete input
`https://host/users/123`, whose marker sits at index 5; the normalized
output's segment `{id}` is neither numeric nor a UUID. -/
theorem c4_no_numeric_or_uuid_segments_witness :
    lastIndexMarker (strL "https://host/users/123") = some 5 ∧
    (isGoInt (strL "{id}") = false ∧ isUUID (strL "{id}") = false) :=
  ⟨by decide,
    c4_no_numeric_or_uuid_segments (strL "https://host/users/123") 5 (by decide)
      (strL "{id}") (by decide)⟩

/-! ### Lemmas about association lists and store operations -/

theorem lookupA_insertA_eq {κ α : Type} [DecidableEq κ]
    (m : List (κ × α)) (k : κ) (v : α) :
    lookupA (insertA m k v) k = some v := by
  induction m with
  | nil => simp [insertA, lookupA]
  | cons kv rest ih =>
    obtain ⟨k0, v0⟩ := kv
    by_cases h : k0 = k
    · simp [insertA, h, lookupA]
    · simp [insertA, h, lookupA, ih]

theorem lookupA_insertA_ne {κ α : Type} [DecidableEq κ]
    (m : List (κ × α)) (k k' : κ) (v : α) (h : k' ≠ k) :
    lookupA (insertA m k v) k' = lookupA m k' := by
  induction m with
  | nil => simp [insertA, lookupA, Ne.symm h]
  | cons kv rest ih =>
    obtain ⟨k0, v0⟩ := kv
    by_cases h0 : k0 = k
    · subst h0
      simp [insertA, lookupA, Ne.symm h]
    · simp only [insertA, if_neg h0]
      by_cases h1 : k0 = k'
      · simp [lookupA, h1]
      · simp [lookupA, h1, ih]

theorem applyOps_preserve {P : SchemaStore → Prop}
    (hstep : ∀ s op, P s → P (applyOp s op)) :
    ∀ (ops : List StoreOp) (s : SchemaStore), P s → P (applyOps ops s) := by
  intro ops
  induction ops with
  | nil => exact fun s hs => hs
  | cons op rest ih => exact fun s hs => ih (applyOp s op) (hstep s op hs)

theorem addValue_new {s : SchemaStore} {p : Str} {v : GoVal}
    (h : lookupA s.Examples p = none) :
    addValue s p v =
      if (0 : Int) < s.maxExamples then
        { s with Examples := insertA (insertA s.Examples p []) p [redactedVal s p v]
                 Optional := insertA s.Optional p true }
      else
        { s with Examples := insertA s.Examples p []
                 Optional := insertA s.Optional p true } := by
  rw [addValue]
  have hnone : (lookupA s.Examples p).isNone = true := by rw [h]; rfl
  simp only [hnone, if_true, lookupA_insertA_eq]
  rfl

theorem addValue_dup {s : SchemaStore} {p : Str} {v : GoVal} {l : List GoVal}
    (h : lookupA s.Examples p = some l)
    (hdup : l.any (fun x => areValuesEqual x (redactedVal s p v)) = true) :
    addValue s p v = s := by
  rw [addValue]
  simp [h, hdup]

theorem addValue_append {s : SchemaStore} {p : Str} {v : GoVal} {l : List GoVal}
    (h : lookupA s.Examples p = some l)
    (hdup : l.any (fun x => areValuesEqual x (redactedVal s p v)) = false)
    (hlt : (l.length : Int) < s.maxExamples) :
    addValue s p v =
      { s with Examples := insertA s.Examples p (l ++ [redactedVal s p v]) } := by
  rw [addValue]
  simp [h, hdup, hlt]

theorem addValue_atCap {s : SchemaStore} {p : Str} {v : GoVal} {l : List GoVal}
    (h : lookupA s.Examples p = some l)
    (hdup : l.any (fun x => areValuesEqual x (redactedVal s p v)) = false)
    (hge : ¬(l.length : Int) < s.maxExamples) :
    addValue s p v = s := by
  rw [addValue]
  simp [h, hdup, hge]

theorem addValue_Examples_new {s : SchemaStore} {p : Str} {v : GoVal}
    (h : lookupA s.Examples p = none) :
    (addValue s p v).Examples =
      if (0 : Int) < s.maxExamples then
        insertA (insertA s.Examples p []) p [redactedVal s p v]
      else insertA s.Examples p [] := by
  rw [addValue_new h]
  split_ifs <;> rfl

theorem addValue_Optional_new {s : SchemaStore} {p : Str} {v : GoVal}
    (h : lookupA s.Examples p = none) :
    (addValue s p v).Optional = insertA s.Optional p true := by
  rw [addValue_new h]
  split_ifs <;> rfl

theorem addValue_Examples_append {s : SchemaStore} {p : Str} {v : GoVal}
    {l : List GoVal} (h : lookupA s.Examples p = some l)
    (hdup : l.any (fun x => areValuesEqual x (redactedVal s p v)) = false)
    (hlt : (l.length : Int) < s.maxExamples) :
    (addValue s p v).Examples = insertA s.Examples p (l ++ [redactedVal s p v]) := by
  rw [addValue_append h hdup hlt]

theorem addValue_Optional_existing {s : SchemaStore} {p : Str} {v : GoVal}
    {l : List GoVal} (h : lookupA s.Examples p = some l) :
    (addValue s p v).Optional = s.Optional := by
  cases hdup : l.any (fun x => areValuesEqual x (redactedVal s p v)) with
  | true => rw [addValue_dup h hdup]
  | false =>
    by_cases hlt : (l.length : Int) < s.maxExamples
    · rw [addValue_append h hdup hlt]
    · rw [addValue_atCap h hdup hlt]

theorem addValue_maxExamples (s : SchemaStore) (p : Str) (v : GoVal) :
    (addValue s p v).maxExamples = s.maxExamples := by
  cases h : lookupA s.Examples p with
  | none => rw [addValue_new h]; split_ifs <;> rfl
  | some l =>
    cases hdup : l.any (fun x => areValuesEqual x (redactedVal s p v)) with
    | true => rw [addValue_dup h hdup]
    | false =>
      by_cases hlt : (l.length : Int) < s.maxExamples
      · rw [addValue_append h hdup hlt]
      · rw [addValue_atCap h hdup hlt]

theorem addValue_analyzer (s : SchemaStore) (p : Str) (v : GoVal) :
    (addValue s p v).analyzer = s.analyzer := by
  cases h : lookupA s.Examples p with
  | none => rw [addValue_new h]; split_ifs <;> rfl
  | some l =>
    cases hdup : l.any (fun x => areValuesEqual x (redactedVal s p v)) with
    | true => rw [addValue_dup h hdup]
    | false =>
      by_cases hlt : (l.length : Int) < s.maxExamples
      · rw [addValue_append h hdup hlt]
      · rw [addValue_atCap h hdup hlt]

theorem applyOp_maxExamples (s : SchemaStore) (op : StoreOp) :
    (applyOp s op).maxExamples = s.maxExamples := by
  cases op with
  | add p v => exact addValue_maxExamples s p v
  | setOpt p b => rfl

theorem applyOp_analyzer (s : SchemaStore) (op : StoreOp) :
    (applyOp s op).analyzer = s.analyzer := by
  cases op with
  | add p v => exact addValue_analyzer s p v
  | setOpt p b => rfl

/-- The distinctness relation used by the example-list invariant. -/
theorem addValue_cap_inv {s : SchemaStore} (h0 : 0 ≤ s.maxExamples)
    (hinv : ∀ q l, lookupA s.Examples q = some l →
      (l.length : Int) ≤ s.maxExamples ∧
      l.Pairwise (fun x y => areValuesEqual x y = false))
    (p : Str) (v : GoVal) :
    ∀ q l, lookupA (addValue s p v).Examples q = some l →
      (l.length : Int) ≤ s.maxExamples ∧
      l.Pairwise (fun x y => areValuesEqual x y = false) := by
  intro q l hq
  cases h : lookupA s.Examples p with
  | none =>
    rw [addValue_Examples_new h] at hq
    split_ifs at hq with hlt
    · by_cases hqp : q = p
      · subst hqp
        rw [lookupA_insertA_eq] at hq
        cases hq
        exact ⟨by simpa using hlt, List.pairwise_singleton _ _⟩
      · rw [lookupA_insertA_ne _ _ _ _ hqp, lookupA_insertA_ne _ _ _ _ hqp] at hq
        exact hinv q l hq
    · by_cases hqp : q = p
      · subst hqp
        rw [lookupA_insertA_eq] at hq
        cases hq
        exact ⟨by simpa using h0, List.Pairwise.nil⟩
      · rw [lookupA_insertA_ne _ _ _ _ hqp] at hq
        exact hinv q l hq
  | some l0 =>
    cases hdup : l0.any (fun x => areValuesEqual x (redactedVal s p v)) with
    | true =>
      rw [addValue_dup h hdup] at hq
      exact hinv q l hq
    | false =>
      by_cases hlt : (l0.length : Int) < s.maxExamples
      · rw [addValue_Examples_append h hdup hlt] at hq
        by_cases hqp : q = p
        · subst hqp
          rw [lookupA_insertA_eq] at hq
          cases hq
          constructor
          · simp only [List.length_append, List.length_singleton]
            omega
          · rw [List.pairwise_append]
            refine ⟨(hinv q l0 h).2, List.pairwise_singleton _ _, ?_⟩
            intro x hx y hy
            rw [List.mem_singleton.mp hy]
            cases hax : areValuesEqual x (redactedVal s q v) with
            | false => rfl
            | true =>
              have hany : l0.any (fun z => areValuesEqual z (redactedVal s q v)) = true :=
                List.any_eq_true.mpr ⟨x, hx, hax⟩
              rw [hdup] at hany
              cases hany
        · rw [lookupA_insertA_ne _ _ _ _ hqp] at hq
          exact hinv q l hq
      · rw [addValue_atCap h hdup hlt] at hq
        exact hinv q l hq

/-- C5: in every SchemaStore reachable from a fresh store by any sequence of
`addValue` / `setOptional` calls, every path's example list has length at most
the store's `maxExamples` and its elements are pairwise distinct under
`areValuesEqual` (comparison happens after redaction). -/
theorem c5_examples_bounded_and_distinct (a : Option AnalyzerCfg)
    (ops : List StoreOp) (p : Str) (l : List GoVal)
    (h : lookupA (applyOps ops (newSchemaStore a)).Examples p = some l) :
    (l.length : Int) ≤ (applyOps ops (newSchemaStore a)).maxExamples ∧
    l.Pairwise (fun x y => areValuesEqual x y = false) := by
  have main : ∀ (s : SchemaStore),
      (0 ≤ s.maxExamples ∧ ∀ q m, lookupA s.Examples q = some m →
        (m.length : Int) ≤ s.maxExamples ∧
        m.Pairwise (fun x y => areValuesEqual x y = false)) →
      (0 ≤ (applyOps ops s).maxExamples ∧
        ∀ q m, lookupA (applyOps ops s).Examples q = some m →
          ((m.length : Int) ≤ (applyOps ops s).maxExamples ∧
            m.Pairwise (fun x y => areValuesEqual x y = false))) := by
    apply applyOps_preserve
    intro s op hs
    cases op with
    | add q0 v0 =>
      refine ⟨by rw [applyOp_maxExamples]; exact hs.1, ?_⟩
      intro q m hm
      have := addValue_cap_inv hs.1 hs.2 q0 v0 q m hm
      rw [show (applyOp s (StoreOp.add q0 v0)).maxExamples = s.maxExamples from
        applyOp_maxExamples s _]
      exact this
    | setOpt q0 b0 => exact hs
  have base : 0 ≤ (newSchemaStore a).maxExamples ∧
      ∀ q m, lookupA (newSchemaStore a).Examples q = some m →
        (m.length : Int) ≤ (newSchemaStore a).maxExamples ∧
        m.Pairwise (fun x y => areValuesEqual x y = false) := by
    refine ⟨(by decide : (0 : Int) ≤ 10), ?_⟩
    intro q m hm
    simp [newSchemaStore, lookupA] at hm
  exact (main (newSchemaStore a) base).2 p l h

/-- C5 witness: the theorem applied to the operations that feed `a`, `a`, `b`
to the path `k` of a fresh store: the resulting list `[a, b]` has two distinct
elements, within the cap 10. -/
theorem c5_examples_bounded_and_distinct_witness :
    lookupA (applyOps
      [StoreOp.add (strL "k") (.str (strL "a")),
       StoreOp.add (strL "k") (.str (strL "a")),
       StoreOp.add (strL "k") (.str (strL "b"))]
      (newSchemaStore none)).Examples (strL "k")
      = some [GoVal.str (strL "a"), GoVal.str (strL "b")] ∧
    (((2 : Nat) : Int) ≤ (applyOps
      [StoreOp.add (strL "k") (.str (strL "a")),
       StoreOp.add (strL "k") (.str (strL "a")),
       StoreOp.add (strL "k") (.str (strL "b"))]
      (newSchemaStore none)).maxExamples ∧
      List.Pairwise (fun x y => areValuesEqual x y = false)
        [GoVal.str (strL "a"), GoVal.str (strL "b")]) :=
  ⟨rfl,
    c5_examples_bounded_and_distinct none
      [StoreOp.add (strL "k") (.str (strL "a")),
       StoreOp.add (strL "k") (.str (strL "a")),
       StoreOp.add (strL "k") (.str (strL "b"))]
      (strL "k") [GoVal.str (strL "a"), GoVal.str (strL "b")] rfl⟩

/-- C6 counterexample: a single `setOptional` on a fresh path of the empty
store creates an `Optional` entry with no matching `Examples` entry, so the
examples/optional domain biconditional fails under general operation
sequences. -/
theorem c6_counterexample :
    lookupA (setOptional (newSchemaStore none) (strL "q") true).Optional
      (strL "q") = some true ∧
    lookupA (setOptional (newSchemaStore none) (strL "q") true).Examples
      (strL "q") = none :=
  ⟨rfl, rfl⟩

/-- C6 (amended): the forward direction holds under every operation sequence
from the empty store — whenever a path has an `Examples` entry it also has an
`Optional` entry.  The reverse direction can be broken by `setOptional` on an
unseen path (the capture pipeline only calls `setOptional` after `addValue` on
the same path, so it never does). -/
theorem c6_examples_imp_optional (a : Option AnalyzerCfg) (ops : List StoreOp)
    (p : Str)
    (h : (lookupA (applyOps ops (newSchemaStore a)).Examples p).isSome = true) :
    (lookupA (applyOps ops (newSchemaStore a)).Optional p).isSome = true := by
  have main : ∀ (s : SchemaStore),
      (∀ q, (lookupA s.Examples q).isSome = true →
        (lookupA s.Optional q).isSome = true) →
      ∀ q, (lookupA (applyOps ops s).Examples q).isSome = true →
        (lookupA (applyOps ops s).Optional q).isSome = true := by
    apply applyOps_preserve
      (P := fun s => ∀ q, (lookupA s.Examples q).isSome = true →
        (lookupA s.Optional q).isSome = true)
    intro s op hs
    cases op with
    | add p0 v0 =>
      intro q hq
      replace hq : (lookupA (addValue s p0 v0).Examples q).isSome = true := hq
      show (lookupA (addValue s p0 v0).Optional q).isSome = true
      cases hl : lookupA s.Examples p0 with
      | none =>
        rw [addValue_Optional_new hl]
        rw [addValue_Examples_new hl] at hq
        by_cases hqp : q = p0
        · subst hqp
          rw [lookupA_insertA_eq]
          rfl
        · rw [lookupA_insertA_ne _ _ _ _ hqp]
          split_ifs at hq with hlt
          · rw [lookupA_insertA_ne _ _ _ _ hqp,
              lookupA_insertA_ne _ _ _ _ hqp] at hq
            exact hs q hq
          · rw [lookupA_insertA_ne _ _ _ _ hqp] at hq
            exact hs q hq
      | some l0 =>
        rw [addValue_Optional_existing hl]
        cases hdup : l0.any (fun x => areValuesEqual x (redactedVal s p0 v0)) with
        | true =>
          rw [addValue_dup hl hdup] at hq
          exact hs q hq
        | false =>
          by_cases hlt : (l0.length : Int) < s.maxExamples
          · rw [addValue_Examples_append hl hdup hlt] at hq
            by_cases hqp : q = p0
            · subst hqp
              exact hs q (by rw [hl]; rfl)
            · rw [lookupA_insertA_ne _ _ _ _ hqp] at hq
              exact hs q hq
          · rw [addValue_atCap hl hdup hlt] at hq
            exact hs q hq
    | setOpt p0 b0 =>
      intro q hq
      show (lookupA (insertA s.Optional p0 b0) q).isSome = true
      by_cases hqp : q = p0
      · subst hqp
        rw [lookupA_insertA_eq]
        rfl
      · rw [lookupA_insertA_ne _ _ _ _ hqp]
        exact hs q hq
  refine main (newSchemaStore a) ?_ p h
  intro q hq
  simp [newSchemaStore, lookupA] at hq

/-- C6 witness: the amended theorem at the single operation `addValue k "v"`
on the empty store — the path `k` has an examples entry, hence an optional
entry. -/
theorem c6_examples_imp_optional_witness :
    (lookupA (applyOps [StoreOp.add (strL "k") (.str (strL "v"))]
      (newSchemaStore none)).Examples (strL "k")).isSome = true ∧
    (lookupA (applyOps [StoreOp.add (strL "k") (.str (strL "v"))]
      (newSchemaStore none)).Optional (strL "k")).isSome = true :=
  ⟨rfl,
    c6_examples_imp_optional none [StoreOp.add (strL "k") (.str (strL "v"))]
      (strL "k") rfl⟩

/-- C1 counterexample: `shouldRedact` compares the WHOLE path with
`strings.EqualFold`, so with redacted name `password` the nested JSON path
`user.password` does not match and `addValue` stores the raw value `secret`
instead of `"REDACTED"`, refuting the final-segment claim. -/
theorem c1_counterexample :
    lookupA (addValue (newSchemaStore (some ⟨10, [strL "password"]⟩))
      (strL "user.password") (.str (strL "secret"))).Examples
      (strL "user.password") = some [GoVal.str (strL "secret")] ∧
    shouldRedact ⟨10, [strL "password"]⟩ (strL "user.password") = false ∧
    strL "secret" ≠ strL "REDACTED" :=
  ⟨rfl, by decide, by decide⟩

/-- C1 (amended): redaction keys on the WHOLE path (header name, parameter
name, or full dotted JSON path) matching a redacted field name
case-insensitively — not on the final segment.  For every such path, every
example ever stored in a store reachable from a fresh store linked to the
analyzer is the literal `"REDACTED"`. -/
theorem c1_redacted_values_redacted (cfg : AnalyzerCfg) (ops : List StoreOp)
    (p : Str) (l : List GoVal) (v : GoVal)
    (hred : shouldRedact cfg p = true)
    (h : lookupA (applyOps ops (newSchemaStore (some cfg))).Examples p = some l)
    (hv : v ∈ l) : v = GoVal.str (strL "REDACTED") := by
  have hredval : ∀ (s : SchemaStore) (w : GoVal), s.analyzer = some cfg →
      redactedVal s p w = GoVal.str (strL "REDACTED") := by
    intro s w hana
    rw [redactedVal, hana]
    simp [hred]
  have main : ∀ (s : SchemaStore),
      (s.analyzer = some cfg ∧ ∀ m, lookupA s.Examples p = some m →
        ∀ x ∈ m, x = GoVal.str (strL "REDACTED")) →
      ((applyOps ops s).analyzer = some cfg ∧
        ∀ m, lookupA (applyOps ops s).Examples p = some m →
          ∀ x ∈ m, x = GoVal.str (strL "REDACTED")) := by
    apply applyOps_preserve
    intro s op hs
    refine ⟨by rw [applyOp_analyzer]; exact hs.1, ?_⟩
    cases op with
    | add p0 v0 =>
      intro m hm x hx
      replace hm : lookupA (addValue s p0 v0).Examples p = some m := hm
      cases hl : lookupA s.Examples p0 with
      | none =>
        rw [addValue_Examples_new hl] at hm
        by_cases hqp : p = p0
        · subst hqp
          split_ifs at hm with hlt
          · rw [lookupA_insertA_eq] at hm
            cases hm
            rw [List.mem_singleton.mp hx]
            exact hredval s v0 hs.1
          · rw [lookupA_insertA_eq] at hm
            cases hm
            cases hx
        · split_ifs at hm with hlt
          · rw [lookupA_insertA_ne _ _ _ _ hqp,
              lookupA_insertA_ne _ _ _ _ hqp] at hm
            exact hs.2 m hm x hx
          · rw [lookupA_insertA_ne _ _ _ _ hqp] at hm
            exact hs.2 m hm x hx
      | some l0 =>
        cases hdup : l0.any (fun y => areValuesEqual y (redactedVal s p0 v0)) with
        | true =>
          rw [addValue_dup hl hdup] at hm
          exact hs.2 m hm x hx
        | false =>
          by_cases hlt : (l0.length : Int) < s.maxExamples
          · rw [addValue_Examples_append hl hdup hlt] at hm
            by_cases hqp : p = p0
            · subst hqp
              rw [lookupA_insertA_eq] at hm
              cases hm
              rcases List.mem_append.mp hx with h1 | h1
              · exact hs.2 l0 hl x h1
              · rw [List.mem_singleton.mp h1]
                exact hredval s v0 hs.1
            · rw [lookupA_insertA_ne _ _ _ _ hqp] at hm
              exact hs.2 m hm x hx
          · rw [addValue_atCap hl hdup hlt] at hm
            exact hs.2 m hm x hx
    | setOpt p0 b0 => exact hs.2
  have base : (newSchemaStore (some cfg)).analyzer = some cfg ∧
      ∀ m, lookupA (newSchemaStore (some cfg)).Examples p = some m →
        ∀ x ∈ m, x = GoVal.str (strL "REDACTED") := by
    refine ⟨rfl, ?_⟩
    intro m hm
    simp [newSchemaStore, lookupA] at hm
  exact (main (newSchemaStore (some cfg)) base).2 l h v hv

/-- C1 witness: the amended theorem at the concrete store fed one value under
the top-level path `password`, which matches the redacted name; the stored
example is the literal `"REDACTED"`. -/
theorem c1_redacted_values_redacted_witness :
    shouldRedact ⟨10, [strL "password"]⟩ (strL "password") = true ∧
    lookupA (applyOps [StoreOp.add (strL "password") (.str (strL "hunter2"))]
      (newSchemaStore (some ⟨10, [strL "password"]⟩))).Examples (strL "password")
      = some [GoVal.str (strL "REDACTED")] ∧
    GoVal.str (strL "REDACTED") = GoVal.str (strL "REDACTED") :=
  ⟨by decide, rfl,
    c1_redacted_values_redacted ⟨10, [strL "password"]⟩
      [StoreOp.add (strL "password") (.str (strL "hunter2"))]
      (strL "password") [GoVal.str (strL "REDACTED")] (GoVal.str (strL "REDACTED"))
      (by decide) rfl (List.mem_singleton.mpr rfl)⟩

/-- C2, evaluated at the failing input: `Analyzer.SetMaxExamples(2)` only sets
the analyzer-level field; no `SchemaStore` ever reads it, so the store cap
stays at the constructor value 10 and feeding `a, a, b, c` to path `k` leaves
`[a, b, c]` — not `[a, b]` as the claim (and the spec scenario) requires. -/
theorem c2_setMaxExamples_not_honoured :
    (setMaxExamples defaultAnalyzerCfg 2).maxExamples = 2 ∧
    (applyOps
      [StoreOp.add (strL "k") (.str (strL "a")),
       StoreOp.add (strL "k") (.str (strL "a")),
       StoreOp.add (strL "k") (.str (strL "b")),
       StoreOp.add (strL "k") (.str (strL "c"))]
      (newSchemaStore (some (setMaxExamples defaultAnalyzerCfg 2)))).maxExamples
      = 10 ∧
    lookupA (applyOps
      [StoreOp.add (strL "k") (.str (strL "a")),
       StoreOp.add (strL "k") (.str (strL "a")),
       StoreOp.add (strL "k") (.str (strL "b")),
       StoreOp.add (strL "k") (.str (strL "c"))]
      (newSchemaStore (some (setMaxExamples defaultAnalyzerCfg 2)))).Examples
      (strL "k")
      = some [GoVal.str (strL "a"), GoVal.str (strL "b"), GoVal.str (strL "c")] :=
  ⟨rfl, rfl, rfl⟩

/-- C7: an exchange whose response status is at least 400 is discarded before
any state is touched — `ProcessRequest` returns with the endpoint registry and
every store exactly as they were. -/
theorem c7_error_responses_discarded (cfg : AnalyzerCfg) (st : AnalyzerState)
    (method url : Str) (query reqHeaders : List (Str × List Str))
    (reqBody : Option GoVal) (status : Int)
    (respHeaders : List (Str × List Str)) (respBody : Option GoVal)
    (h : status ≥ 400) :
    processRequest cfg st method url query reqHeaders reqBody status
      respHeaders respBody = st := by
  rw [processRequest, if_pos h]

/-- C7 witness: a status-500 exchange against the empty registry leaves it
empty. -/
theorem c7_error_responses_discarded_witness :
    (500 : Int) ≥ 400 ∧
    processRequest defaultAnalyzerCfg ⟨[]⟩ (strL "POST") (strL "http://h/x")
      [] [] none 500 [] none = ⟨[]⟩ :=
  ⟨by decide,
    c7_error_responses_discarded defaultAnalyzerCfg ⟨[]⟩ (strL "POST")
      (strL "http://h/x") [] [] none 500 [] none (by decide)⟩

theorem addValue_frozen {s : SchemaStore} (hmax : s.maxExamples ≤ 0)
    (p : Str) (v : GoVal) :
    addValue s p v =
      if (lookupA s.Examples p).isNone then
        { s with Examples := insertA s.Examples p []
                 Optional := insertA s.Optional p true }
      else s := by
  cases hl : lookupA s.Examples p with
  | none =>
    rw [addValue_new hl]
    rw [if_neg (show ¬((0 : Int) < s.maxExamples) by omega)]
    simp only [Option.isNone_none, if_true]
  | some l0 =>
    simp only [Option.isNone_some, Bool.false_eq_true, if_false]
    cases hdup : l0.any (fun x => areValuesEqual x (redactedVal s p v)) with
    | true => exact addValue_dup hl hdup
    | false =>
      refine addValue_atCap hl hdup ?_
      have : (0 : Int) ≤ (l0.length : Int) := Int.ofNat_nonneg _
      omega

/-- C9: a restored SchemaStore (unexported fields take Go zero values after
`json.Unmarshal`, so `maxExamples = 0`) stays frozen under every sequence of
`addValue` calls: every path either keeps exactly its snapshot entries, or —
for a path absent from the snapshot — gains an empty example list with
optional `true`.  No example value is ever appended. -/
theorem c9_restored_stores_frozen (d : PersistedStoreData)
    (adds : List (Str × GoVal)) :
    (adds.foldl (fun st pv => addValue st pv.1 pv.2) (restoreStore d)).maxExamples
      = 0 ∧
    ∀ p,
      (lookupA (adds.foldl (fun st pv => addValue st pv.1 pv.2)
          (restoreStore d)).Examples p = lookupA d.examples p ∧
        lookupA (adds.foldl (fun st pv => addValue st pv.1 pv.2)
          (restoreStore d)).Optional p = lookupA d.optional p) ∨
      (lookupA d.examples p = none ∧
        lookupA (adds.foldl (fun st pv => addValue st pv.1 pv.2)
          (restoreStore d)).Examples p = some [] ∧
        lookupA (adds.foldl (fun st pv => addValue st pv.1 pv.2)
          (restoreStore d)).Optional p = some true) := by
  have main : ∀ (l : List (Str × GoVal)) (s : SchemaStore),
      (s.maxExamples = 0 ∧ ∀ p,
        (lookupA s.Examples p = lookupA d.examples p ∧
          lookupA s.Optional p = lookupA d.optional p) ∨
        (lookupA d.examples p = none ∧ lookupA s.Examples p = some [] ∧
          lookupA s.Optional p = some true)) →
      ((l.foldl (fun st pv => addValue st pv.1 pv.2) s).maxExamples = 0 ∧
        ∀ p,
          (lookupA (l.foldl (fun st pv => addValue st pv.1 pv.2) s).Examples p
              = lookupA d.examples p ∧
            lookupA (l.foldl (fun st pv => addValue st pv.1 pv.2) s).Optional p
              = lookupA d.optional p) ∨
          (lookupA d.examples p = none ∧
            lookupA (l.foldl (fun st pv => addValue st pv.1 pv.2) s).Examples p
              = some [] ∧
            lookupA (l.foldl (fun st pv => addValue st pv.1 pv.2) s).Optional p
              = some true)) := by
    intro l
    induction l with
    | nil => exact fun s hs => hs
    | cons pv rest ih =>
      intro s hs
      refine ih (addValue s pv.1 pv.2) ?_
      have hfrozen := addValue_frozen (by omega : s.maxExamples ≤ 0) pv.1 pv.2
      constructor
      · rw [addValue_maxExamples]; exact hs.1
      · intro p
        rw [hfrozen]
        cases hl : lookupA s.Examples pv.1 with
        | none =>
          simp only [Option.isNone_none, if_true]
          by_cases hqp : p = pv.1
          · rw [hqp]
            right
            have hd : lookupA d.examples pv.1 = none := by
              rcases hs.2 pv.1 with ⟨h1, _⟩ | ⟨h1, h2, _⟩
              · rw [← h1, hl]
              · rw [h2] at hl; cases hl
            exact ⟨hd, by rw [lookupA_insertA_eq], by rw [lookupA_insertA_eq]⟩
          · have he : lookupA (insertA s.Examples pv.1 []) p = lookupA s.Examples p :=
              lookupA_insertA_ne _ _ _ _ hqp
            have ho : lookupA (insertA s.Optional pv.1 true) p = lookupA s.Optional p :=
              lookupA_insertA_ne _ _ _ _ hqp
            rcases hs.2 p with ⟨h1, h2⟩ | ⟨h1, h2, h3⟩
            · left; exact ⟨by rw [he, h1], by rw [ho, h2]⟩
            · right; exact ⟨h1, by rw [he, h2], by rw [ho, h3]⟩
        | some l0 =>
          simp only [Option.isNone_some, Bool.false_eq_true, if_false]
          exact hs.2 p
  have base : (restoreStore d).maxExamples = 0 ∧ ∀ p,
      (lookupA (restoreStore d).Examples p = lookupA d.examples p ∧
        lookupA (restoreStore d).Optional p = lookupA d.optional p) ∨
      (lookupA d.examples p = none ∧ lookupA (restoreStore d).Examples p = some [] ∧
        lookupA (restoreStore d).Optional p = some true) :=
    ⟨rfl, fun p => Or.inl ⟨rfl, rfl⟩⟩
  exact main adds (restoreStore d) base

/-- C10 counterexample: on a store restored from an empty snapshot, with the
back-reference nil, adding a value under the redacted-style name `password`
stores NOTHING — the path entry is the empty list, not the verbatim value the
claim asserts (and not `"REDACTED"` either), because the restored cap is 0. -/
theorem c10_counterexample :
    (restoreStore ⟨[], []⟩).analyzer = none ∧
    lookupA (addValue (restoreStore ⟨[], []⟩) (strL "password")
      (.str (strL "secret"))).Examples (strL "password") = some [] ∧
    (some ([] : List GoVal) ≠ some [GoVal.str (strL "secret")]) ∧
    (some ([] : List GoVal) ≠ some [GoVal.str (strL "REDACTED")]) :=
  ⟨rfl, rfl, by simp, by simp⟩

/-- C10 (amended): snapshot loading indeed never re-establishes the analyzer
back-reference, so the redaction check in `addValue` is skipped on a restored
store (the candidate value stays the raw one); but because the restored cap is
zero nothing is appended at all — every example list after the call is either
exactly its snapshot value or the empty list, never the verbatim raw value. -/
theorem c10_restored_redaction_skipped_nothing_stored
    (d : PersistedStoreData) (p : Str) (v : GoVal) :
    (restoreStore d).analyzer = none ∧
    redactedVal (restoreStore d) p v = v ∧
    ∀ q, lookupA (addValue (restoreStore d) p v).Examples q = lookupA d.examples q ∨
      lookupA (addValue (restoreStore d) p v).Examples q = some [] := by
  refine ⟨rfl, rfl, ?_⟩
  intro q
  rw [addValue_frozen (by rfl : (restoreStore d).maxExamples ≤ 0)]
  cases hl : lookupA (restoreStore d).Examples p with
  | none =>
    simp only [Option.isNone_none, if_true]
    by_cases hqp : q = p
    · subst hqp
      right
      show lookupA (insertA d.examples q []) q = some []
      rw [lookupA_insertA_eq]
    · left
      show lookupA (insertA d.examples p []) q = lookupA d.examples q
      rw [lookupA_insertA_ne _ _ _ _ hqp]
  | some l0 =>
    simp only [Option.isNone_some, Bool.false_eq_true, if_false]
    left
    rfl

theorem trieInsert_leaf (n : TrieNode) (parts : List Str) (full : Str) :
    (trieInsert n parts full).leaf = n.leaf := by
  cases parts with
  | nil => rfl
  | cons part rest => rfl

theorem buildTrie_leaf (store : SchemaStore) : (buildTrie store).leaf = false := by
  rw [buildTrie]
  have aux : ∀ (l : List (Str × List GoVal)) (t : TrieNode), t.leaf = false →
      (l.foldl (fun t kv => trieInsert t (splitOnChar '.' kv.1) kv.1) t).leaf
        = false := by
    intro l
    induction l with
    | nil => exact fun t ht => ht
    | cons kv rest ih =>
      intro t ht
      exact ih _ (by rw [trieInsert_leaf]; exact ht)
  exact aux store.Examples _ rfl

theorem buildRequired_mem (store : SchemaStore) (l : List (Str × TrieNode))
    (name : Str) :
    name ∈ buildRequired store l ↔
      ∃ k c, (k, c) ∈ l ∧ requiredFlag store c = true ∧ childName k = name := by
  induction l with
  | nil => simp [buildRequired]
  | cons kc rest ih =>
    obtain ⟨k, c⟩ := kc
    cases hf : requiredFlag store c with
    | true =>
      rw [show buildRequired store ((k, c) :: rest)
          = childName k :: buildRequired store rest by
        rw [buildRequired, if_pos hf]]
      constructor
      · intro hmem
        rcases List.mem_cons.mp hmem with h1 | h1
        · exact ⟨k, c, List.mem_cons_self _ _, hf, h1.symm⟩
        · obtain ⟨k', c', hm, hf', hn⟩ := ih.mp h1
          exact ⟨k', c', List.mem_cons_of_mem _ hm, hf', hn⟩
      · rintro ⟨k', c', hm, hf', hn⟩
        rcases List.mem_cons.mp hm with h1 | h1
        · cases h1
          rw [← hn]
          exact List.mem_cons_self _ _
        · exact List.mem_cons_of_mem _ (ih.mpr ⟨k', c', h1, hf', hn⟩)
    | false =>
      rw [show buildRequired store ((k, c) :: rest) = buildRequired store rest by
        rw [buildRequired, if_neg (by rw [hf]; simp)]]
      rw [ih]
      constructor
      · rintro ⟨k', c', hm, hf', hn⟩
        exact ⟨k', c', List.mem_cons_of_mem _ hm, hf', hn⟩
      · rintro ⟨k', c', hm, hf', hn⟩
        rcases List.mem_cons.mp hm with h1 | h1
        · cases h1
          rw [hf'] at hf
          cases hf
        · exact ⟨k', c', h1, hf', hn⟩

/-- C3 counterexample: in `c3Store` every optional flag is `true` and neither
`a` nor the chain-resolved suffix `b` is a key of the store, yet the root
object schema's required list is `["a"]`.  Under the claim — a child enters
`required` only when its full path is a present key whose optional flag is
`false` — the list would have to be empty. -/
theorem c3_counterexample :
    (buildObjectSchemaFromStore c3Store).required = [strL "a"] ∧
    c3Store.Optional = [(strL "a.b.x", true), (strL "a.b.y", true)] ∧
    lookupA c3Store.Optional (strL "a") = none ∧
    lookupA c3Store.Optional (strL "b") = none :=
  ⟨rfl, rfl, rfl, rfl⟩

/-- C3 (amended): a child of the root object is added to `required` iff its
resolved path (`requiredFlag`) is non-empty and the store's optional map does
not hold `true` for it — where a missing key yields Go's zero value `false`
and the resolved path of a branching single-child chain is a dot-join of
walked keys that need not be a key of the store at all. -/
theorem c3_required_membership (store : SchemaStore) (name : Str) :
    name ∈ (buildObjectSchemaFromStore store).required ↔
      ∃ k c, (k, c) ∈ (buildTrie store).children ∧
        requiredFlag store c = true ∧ childName k = name := by
  rw [buildObjectSchemaFromStore]
  have hleaf := buildTrie_leaf store
  cases htr : buildTrie store with
  | mk ch lf pth =>
    rw [htr] at hleaf
    have hlf : lf = false := hleaf
    subst hlf
    have hb : buildNode store (TrieNode.mk ch false pth) true =
        Schema.mk (strL "object") (buildProps store ch) none [] []
          (buildRequired store ch) := by
      rw [buildNode]
      simp
    rw [hb]
    show name ∈ buildRequired store ch ↔ _
    exact buildRequired_mem store ch name

end DocuRift
